import Mathlib

/-!
# Verification of the matching core and input sanitization

This development embeds, in Lean 4, the logical core of the
student-placement application: the text sanitization applied to job
descriptions before embedding generation, the score-tiering helpers of the
matching pages, and the match-scoring computation (`computeMatch`).

Strings are modelled as `List Char`; IEEE-754 entries of an embedding are
modelled as either a finite rational value or one of the non-finite values
NaN / +Inf / -Inf, so that finiteness checks are meaningful while the
arithmetic itself is exact rational arithmetic.
-/

namespace Placement

/-! ## Characters and whitespace

`sanitize_description` (ai-engine, quoted in `ROBUSTNESS_FIXES.md`) and the
matching client-side `sanitizeText` operate on Unicode strings.  The wildcard
whitespace class used by both regex engines matches the ASCII whitespace
characters together with the Unicode whitespace code points; the set below is
the one used by the backend regex engine on `str` input. -/

/-- The space character, code point 32. -/
def spaceChar : Char := Char.ofNat 32

/-- The newline character, code point 10. -/
def nlChar : Char := Char.ofNat 10

/-- The carriage-return character, code point 13. -/
def crChar : Char := Char.ofNat 13

/-- The horizontal-tab character, code point 9. -/
def tabChar : Char := Char.ofNat 9

/-- Whitespace as matched by the sanitizer's whitespace wildcard: ASCII
space, tab, newline, carriage return, vertical tab, form feed, the file- to
unit-separator controls, next line, and the Unicode space code points. -/
def isWs (c : Char) : Bool :=
  let n := c.toNat
  n = 32 || n = 9 || n = 10 || n = 13 || n = 11 || n = 12 ||
    (28 ≤ n && n ≤ 31) || n = 133 || n = 160 || n = 5760 ||
    (8192 ≤ n && n ≤ 8202) || n = 8232 || n = 8233 || n = 8239 ||
    n = 8287 || n = 12288

/-- Control characters in the range `\x00`-`\x1f`, the range deleted by the
sanitizer's second step. -/
def isCtl (c : Char) : Bool := c.toNat ≤ 31

/-! ## The sanitizer

From `ai-engine/ROBUSTNESS_FIXES.md` (`sanitize_description`, the job
creation validator) and the equivalent client-side `sanitizeText`:

1. replace newline, carriage return and tab by spaces;
2. delete every control character in `\x00`-`\x1f`;
3. collapse every maximal run of whitespace to a single space;
4. strip leading and trailing whitespace. -/

/-- Step 1: replace each newline, carriage return or tab by a space. -/
def replaceNewlines (s : List Char) : List Char :=
  s.map fun c => if c = nlChar || c = crChar || c = tabChar then spaceChar else c

/-- Step 2: delete every control character in `\x00`-`\x1f`. -/
def removeCtl (s : List Char) : List Char :=
  s.filter fun c => !(isCtl c)

/-- Step 3: replace each maximal run of whitespace characters by a single
space (the substitution of the whitespace-run pattern by one space): of a
run of consecutive whitespace characters only the last survives, as a
space; all other characters are kept unchanged. -/
def collapseWs : List Char → List Char
  | [] => []
  | [c] => if isWs c then [spaceChar] else [c]
  | c :: d :: rest =>
    if isWs c && isWs d then collapseWs (d :: rest)
    else (if isWs c then spaceChar else c) :: collapseWs (d :: rest)

/-- Remove the maximal whitespace suffix of a string. -/
def trimEnd : List Char → List Char
  | [] => []
  | c :: rest =>
    match trimEnd rest with
    | [] => if isWs c then [] else [c]
    | r => c :: r

/-- Step 4: strip whitespace from both ends. -/
def trimWs (s : List Char) : List Char :=
  trimEnd (s.dropWhile isWs)

/-- The full sanitizer: replace newline/CR/tab by spaces, delete control
characters, collapse whitespace runs to single spaces, and strip both
ends. -/
def sanitizeText (s : List Char) : List Char :=
  trimWs (collapseWs (removeCtl (replaceNewlines s)))

/-! Observable properties of sanitizer output, as Boolean checks. -/

/-- Does the string contain a control character (`\x00`-`\x1f`)? -/
def hasCtl (s : List Char) : Bool := s.any isCtl

/-- Does the string contain two consecutive spaces? -/
def hasDoubleSpace : List Char → Bool
  | a :: b :: rest => (a = spaceChar && b = spaceChar) || hasDoubleSpace (b :: rest)
  | _ => false

/-- Does the string start or end with a whitespace character? -/
def hasEdgeWs (s : List Char) : Bool :=
  match s with
  | [] => false
  | c :: rest => isWs c || isWs (rest.getLastD c)

/-- No two adjacent whitespace characters. -/
def noWsWs : List Char → Bool
  | a :: b :: rest => !(isWs a && isWs b) && noWsWs (b :: rest)
  | _ => true

/-- Every whitespace character in the string is a plain space. -/
def SpOnly (l : List Char) : Prop :=
  ∀ c ∈ l, isWs c = true → c = spaceChar

/-! ## Score tiering (web client)

From the job-matching page: given the match score returned by the backend,
pick the recommendation message and the banner color. -/

/-- The recommendation message for a score: the strong tier above 70
(strictly), the moderate tier from 40 up to and including 70, the weak tier
below 40. -/
def getScoreMessage (score : ℚ) : String :=
  if 70 < score then "High Match! You should apply."
  else if 40 ≤ score then "Moderate Match. Brush up on your skills."
  else "Low Match. Consider other roles."

/-- The banner color classes for a score, from the same page; the tiers
mirror `getScoreMessage`. -/
def getScoreColor (score : ℚ) : String :=
  if 70 < score then "text-green-600 bg-green-50 border-green-200"
  else if 40 ≤ score then "text-yellow-600 bg-yellow-50 border-yellow-200"
  else "text-red-600 bg-red-50 border-red-200"

/-! ## The match scorer -/

/-- An entry of an embedding: a finite IEEE-754 value, modelled as an exact
rational, or one of the non-finite values. -/
inductive FloatVal
  | finite (q : ℚ)
  | nan
  | posInf
  | negInf
deriving DecidableEq, Repr

/-- Is the entry a finite number? -/
def FloatVal.isFinite : FloatVal → Bool
  | .finite _ => true
  | _ => false

/-- The rational value of a finite entry (0 on the non-finite values, which
validation rejects before any arithmetic happens). -/
def FloatVal.toRat : FloatVal → ℚ
  | .finite q => q
  | _ => 0

/-- Shorthand for a finite embedding entry. -/
def fv (q : ℚ) : FloatVal := FloatVal.finite q

/-- The error taxonomy of the match scorer: invalid vector (empty or
non-finite entry), dimension mismatch, zero vector, threshold out of
range. -/
inductive MatchError
  | InvalidVector
  | DimensionMismatch
  | ZeroVector
  | ThresholdOutOfRange
deriving DecidableEq, Repr

/-- The result of a successful match computation: the percentage score, the
threshold comparison, and the recommendation text. -/
structure MatchResult where
  score : ℚ
  meetsThreshold : Bool
  recommendation : String
deriving DecidableEq, Repr

/-- Dot product of two rational vectors. -/
def dot (a b : List ℚ) : ℚ := (List.zipWith (· * ·) a b).sum

/-- Sum of squares of a rational vector (the square of its Euclidean
norm). -/
def sumSq (a : List ℚ) : ℚ := (a.map fun x => x * x).sum

/-- Modelled from the spec: the rounded per-mille value
`round(1000 * clamp(d / sqrt P))` for `0 < d` and `d * d < P`, computed
without square roots.  For `1 ≤ k ≤ 1000`,
`k ≤ 1000 * d / sqrt P + 1 / 2` holds iff `(2 * k - 1) * sqrt P ≤ 2000 * d`
iff `(2 * k - 1) ^ 2 * P ≤ 4000000 * d ^ 2` (both sides positive), and
since the predicate is downward closed in `k` the rounded value is the
number of `k` in `1..1000` satisfying it; below, `k` ranges over
`0..999` standing for `k + 1`, so `2 * k - 1` becomes `2 * k + 1`. -/
def roundedPermille (d P : ℚ) : ℕ :=
  ((List.range 1000).filter
    fun k => ((2 * k + 1 : ℚ)) ^ 2 * P ≤ 4000000 * d ^ 2).length

/-- Modelled from the spec: steps 5 and 6 of the algorithm.  Given the dot
product `d` and the product `P` of the two sums of squares, the cosine
similarity is `s = d / sqrt P`; clamp it to `[-1, 1]`, floor the negative
range at 0, scale to a percentage and round to one decimal.  A
non-positive `d` means non-positive similarity, hence score 0; `P ≤ d * d`
with `0 < d` means similarity at least 1, clamped to 1, hence score 100;
otherwise the score is the rounded per-mille value divided by 10. -/
def scaledScore (d P : ℚ) : ℚ :=
  if d ≤ 0 then 0
  else if P ≤ d * d then 100
  else (roundedPermille d P : ℚ) / 10

/-- Modelled from the spec: step 8, the recommendation text chosen by the
fixed tiering rule on the score (the exact wording is a presentation
concern). -/
def recommendationFor (score : ℚ) : String :=
  if 70 ≤ score then "Strong match. Apply now."
  else if 40 ≤ score then "Moderate match. Keep improving your skills."
  else "Weak match. Consider other roles."

/-- Is either embedding empty, or does either contain a non-finite
entry? -/
def badInput (a b : List FloatVal) : Bool :=
  a.isEmpty || b.isEmpty ||
    a.any (fun v => !v.isFinite) || b.any (fun v => !v.isFinite)

/-- The score of a validated pair of embeddings: cosine similarity from
the dot product and the product of the squared norms, clamped, floored at
0, scaled to a percentage and rounded to one decimal. -/
def matchScore (a b : List FloatVal) : ℚ :=
  scaledScore (dot (a.map FloatVal.toRat) (b.map FloatVal.toRat))
    (sumSq (a.map FloatVal.toRat) * sumSq (b.map FloatVal.toRat))

/-- Modelled from the spec: the match scorer `computeMatch` (§4.1); the
implementation (`ai-engine/routers/matching.py`) is only documented, not
present, in the corpus.  Validate that both embeddings are non-empty and
finite (`InvalidVector` otherwise) and of equal length
(`DimensionMismatch` otherwise); fail with `ZeroVector` when either norm
is zero (the norm is zero exactly when the sum of squares is); otherwise
compute the score from the dot product and the norms, compare it to the
threshold with `≥`, and attach the tiered recommendation.  The algorithm
of §4.1 performs no threshold-range check, so `ThresholdOutOfRange` is
never raised here. -/
def computeMatch (a b : List FloatVal) (t : ℤ) : Except MatchError MatchResult :=
  if badInput a b then .error .InvalidVector
  else if a.length ≠ b.length then .error .DimensionMismatch
  else if sumSq (a.map FloatVal.toRat) = 0 ∨ sumSq (b.map FloatVal.toRat) = 0 then
    .error .ZeroVector
  else
    .ok { score := matchScore a b
          meetsThreshold := decide ((t : ℚ) ≤ matchScore a b)
          recommendation := recommendationFor (matchScore a b) }

/-- A valid pair of embeddings: both non-empty, every entry finite. -/
def ValidPair (a b : List FloatVal) : Prop :=
  a ≠ [] ∧ b ≠ [] ∧ (∀ v ∈ a, v.isFinite = true) ∧ (∀ v ∈ b, v.isFinite = true)

/-! ## Helper lemmas for the match scorer -/

theorem badInput_eq_false (a b : List FloatVal) :
    badInput a b = false ↔ ValidPair a b := by
  simp [badInput, ValidPair, List.isEmpty_iff, List.any_eq_true, and_assoc]

theorem scaledScore_nonneg (d P : ℚ) : 0 ≤ scaledScore d P := by
  unfold scaledScore
  split_ifs with h1 h2
  · norm_num
  · norm_num
  · positivity

set_option maxRecDepth 10000 in
theorem roundedPermille_le (d P : ℚ) : roundedPermille d P ≤ 1000 := by
  unfold roundedPermille
  exact le_trans (List.length_filter_le _ _) (le_of_eq (List.length_range 1000))

theorem scaledScore_le (d P : ℚ) : scaledScore d P ≤ 100 := by
  unfold scaledScore
  split_ifs with h1 h2
  · norm_num
  · norm_num
  · rw [div_le_iff₀ (by norm_num : (0:ℚ) < 10)]
    calc ((roundedPermille d P : ℚ)) ≤ 1000 := by
          exact_mod_cast roundedPermille_le d P
      _ = 100 * 10 := by norm_num

theorem scaledScore_self (d : ℚ) (hd : 0 < d) : scaledScore d (d * d) = 100 := by
  unfold scaledScore
  rw [if_neg (not_le.mpr hd), if_pos le_rfl]

theorem scaledScore_nonpos (d P : ℚ) (hd : d ≤ 0) : scaledScore d P = 0 := by
  unfold scaledScore
  rw [if_pos hd]

theorem dot_comm (a b : List ℚ) : dot a b = dot b a := by
  unfold dot
  rw [List.zipWith_comm_of_comm (· * ·) mul_comm]

theorem dot_self_eq_sumSq (a : List ℚ) : dot a a = sumSq a := by
  induction a with
  | nil => rfl
  | cons x xs ih =>
    simp only [dot, sumSq, List.zipWith_cons_cons, List.map_cons,
      List.sum_cons] at ih ⊢
    rw [ih]

theorem sumSq_nonneg (a : List ℚ) : 0 ≤ sumSq a := by
  induction a with
  | nil => simp [sumSq]
  | cons x xs ih =>
    simp only [sumSq, List.map_cons, List.sum_cons] at ih ⊢
    exact add_nonneg (mul_self_nonneg x) ih

theorem badInput_comm (a b : List FloatVal) : badInput a b = badInput b a := by
  unfold badInput
  cases a.isEmpty <;> cases b.isEmpty <;>
    cases ha : a.any (fun v => !v.isFinite) <;>
    cases hb : b.any (fun v => !v.isFinite) <;> simp [ha, hb]

/-- The success case of `computeMatch`, spelled out. -/
theorem cm_ok (a b : List FloatVal) (t : ℤ)
    (hv : ValidPair a b) (hl : a.length = b.length)
    (hza : sumSq (a.map FloatVal.toRat) ≠ 0)
    (hzb : sumSq (b.map FloatVal.toRat) ≠ 0) :
    computeMatch a b t =
      .ok { score := matchScore a b
            meetsThreshold := decide ((t : ℚ) ≤ matchScore a b)
            recommendation := recommendationFor (matchScore a b) } := by
  have hb : badInput a b = false := (badInput_eq_false a b).mpr hv
  simp [computeMatch, hb, hl, hza, hzb]

/-- Whatever `computeMatch` accepts was produced by the success branch. -/
theorem cm_of_ok (a b : List FloatVal) (t : ℤ) (r : MatchResult)
    (h : computeMatch a b t = .ok r) :
    r = { score := matchScore a b
          meetsThreshold := decide ((t : ℚ) ≤ matchScore a b)
          recommendation := recommendationFor (matchScore a b) } := by
  unfold computeMatch at h
  split_ifs at h with h1 h2 h3
  simp only [Except.ok.injEq] at h
  exact h.symm

/-! ## The claims -/

/-- C1: for every pair of valid embeddings and every threshold, the score
field of a successful `computeMatch` lies in the closed interval
`[0, 100]`. -/
theorem computeMatch_score_mem_range (a b : List FloatVal) (t : ℤ)
    (r : MatchResult) (h : computeMatch a b t = .ok r) :
    0 ≤ r.score ∧ r.score ≤ 100 := by
  rw [cm_of_ok a b t r h]
  exact ⟨scaledScore_nonneg _ _, scaledScore_le _ _⟩

/-- Witness for C1 at `a = b = [1]`, `t = 50`: the score 100 is in
range. -/
theorem computeMatch_score_mem_range_witness :
    0 ≤ (MatchResult.mk 100 true "Strong match. Apply now.").score ∧
      (MatchResult.mk 100 true "Strong match. Apply now.").score ≤ 100 :=
  computeMatch_score_mem_range [fv 1] [fv 1] 50 _
    (by norm_num [computeMatch, badInput, fv, FloatVal.isFinite,
      FloatVal.toRat, sumSq, dot, matchScore, scaledScore, recommendationFor])

/-- C3: for every valid input, the `meetsThreshold` field of a successful
`computeMatch` is true exactly when the score is at least the threshold
(the comparison is `≥`, not strict `>`). -/
theorem computeMatch_meets_iff (a b : List FloatVal) (t : ℤ)
    (r : MatchResult) (h : computeMatch a b t = .ok r) :
    r.meetsThreshold = true ↔ (t : ℚ) ≤ r.score := by
  rw [cm_of_ok a b t r h]
  simp

/-- Witness for C3 at `a = b = [1]`, `t = 100`: the score is exactly the
threshold and `meetsThreshold` is true. -/
theorem computeMatch_meets_iff_witness :
    (MatchResult.mk 100 true "Strong match. Apply now.").meetsThreshold = true ↔
      ((100 : ℤ) : ℚ) ≤ (MatchResult.mk 100 true "Strong match. Apply now.").score :=
  computeMatch_meets_iff [fv 1] [fv 1] 100 _
    (by norm_num [computeMatch, badInput, fv, FloatVal.isFinite,
      FloatVal.toRat, sumSq, dot, matchScore, scaledScore, recommendationFor])

/-- C4: for every pair of equal-length non-empty finite embeddings in which
at least one has zero magnitude (zero sum of squares), `computeMatch` fails
with `ZeroVector` and returns no score, default or otherwise. -/
theorem computeMatch_zero_vector (a b : List FloatVal) (t : ℤ)
    (hv : ValidPair a b) (hl : a.length = b.length)
    (hz : sumSq (a.map FloatVal.toRat) = 0 ∨ sumSq (b.map FloatVal.toRat) = 0) :
    computeMatch a b t = .error .ZeroVector ∧
      ∀ r : MatchResult, computeMatch a b t ≠ .ok r := by
  have hb : badInput a b = false := (badInput_eq_false a b).mpr hv
  have he : computeMatch a b t = .error .ZeroVector := by
    simp [computeMatch, hb, hl, hz]
  exact ⟨he, fun r hr => by rw [he] at hr; exact Except.noConfusion hr⟩

/-- Witness for C4: `computeMatch [0,0,0] [1,2,3] 50` fails with
`ZeroVector`. -/
theorem computeMatch_zero_vector_witness :
    computeMatch [fv 0, fv 0, fv 0] [fv 1, fv 2, fv 3] 50 =
        .error .ZeroVector ∧
      ∀ r : MatchResult,
        computeMatch [fv 0, fv 0, fv 0] [fv 1, fv 2, fv 3] 50 ≠ .ok r :=
  computeMatch_zero_vector [fv 0, fv 0, fv 0] [fv 1, fv 2, fv 3] 50
    (by refine ⟨by decide, by decide, ?_, ?_⟩ <;> decide)
    (by decide)
    (Or.inl (by norm_num [sumSq, fv, FloatVal.toRat]))

/-- C5: for every pair of non-empty finite embeddings of different
lengths, `computeMatch` fails with `DimensionMismatch`; it never truncates
or pads to produce a score. -/
theorem computeMatch_dimension_mismatch (a b : List FloatVal) (t : ℤ)
    (hv : ValidPair a b) (hl : a.length ≠ b.length) :
    computeMatch a b t = .error .DimensionMismatch ∧
      ∀ r : MatchResult, computeMatch a b t ≠ .ok r := by
  have hb : badInput a b = false := (badInput_eq_false a b).mpr hv
  have he : computeMatch a b t = .error .DimensionMismatch := by
    simp [computeMatch, hb, hl]
  exact ⟨he, fun r hr => by rw [he] at hr; exact Except.noConfusion hr⟩

/-- Witness for C5: `computeMatch [1,2,3] [1,2] 50` fails with
`DimensionMismatch`. -/
theorem computeMatch_dimension_mismatch_witness :
    computeMatch [fv 1, fv 2, fv 3] [fv 1, fv 2] 50 =
        .error .DimensionMismatch ∧
      ∀ r : MatchResult,
        computeMatch [fv 1, fv 2, fv 3] [fv 1, fv 2] 50 ≠ .ok r :=
  computeMatch_dimension_mismatch [fv 1, fv 2, fv 3] [fv 1, fv 2] 50
    (by refine ⟨by decide, by decide, ?_, ?_⟩ <;> decide)
    (by decide)

/-- C6: for every input in which either embedding is empty or contains a
non-finite entry, `computeMatch` fails with `InvalidVector` (this model
checks validity before lengths, so the error is always `InvalidVector`,
which the claim admits) rather than coercing the input and returning a
score. -/
theorem computeMatch_invalid_vector (a b : List FloatVal) (t : ℤ)
    (h : a = [] ∨ b = [] ∨ (∃ v ∈ a, v.isFinite = false) ∨
      (∃ v ∈ b, v.isFinite = false)) :
    computeMatch a b t = .error .InvalidVector ∧
      ∀ r : MatchResult, computeMatch a b t ≠ .ok r := by
  have hb : badInput a b = true := by
    simp only [badInput, Bool.or_eq_true, List.isEmpty_iff, List.any_eq_true,
      Bool.not_eq_true', or_assoc]
    exact h
  have he : computeMatch a b t = .error .InvalidVector := by
    simp [computeMatch, hb]
  exact ⟨he, fun r hr => by rw [he] at hr; exact Except.noConfusion hr⟩

/-- Witness for C6: an embedding containing NaN is rejected with
`InvalidVector`. -/
theorem computeMatch_invalid_vector_witness :
    computeMatch [FloatVal.nan, fv 1] [fv 1, fv 2] 50 =
        .error .InvalidVector ∧
      ∀ r : MatchResult,
        computeMatch [FloatVal.nan, fv 1] [fv 1, fv 2] 50 ≠ .ok r :=
  computeMatch_invalid_vector [FloatVal.nan, fv 1] [fv 1, fv 2] 50
    (Or.inr (Or.inr (Or.inl ⟨FloatVal.nan, by decide, by decide⟩)))

/-- C7: for every pair of valid embeddings whose cosine similarity is
negative or zero (non-positive dot product), the score is exactly 0, never
a negative percentage; with threshold 50, `meetsThreshold` is false. -/
theorem computeMatch_nonpos_sim (a b : List FloatVal)
    (hv : ValidPair a b) (hl : a.length = b.length)
    (hza : sumSq (a.map FloatVal.toRat) ≠ 0)
    (hzb : sumSq (b.map FloatVal.toRat) ≠ 0)
    (hd : dot (a.map FloatVal.toRat) (b.map FloatVal.toRat) ≤ 0) :
    (∀ t : ℤ, computeMatch a b t =
      .ok { score := 0
            meetsThreshold := decide ((t : ℚ) ≤ 0)
            recommendation := recommendationFor 0 }) ∧
    computeMatch a b 50 =
      .ok { score := 0
            meetsThreshold := false
            recommendation := recommendationFor 0 } := by
  have hs : matchScore a b = 0 := scaledScore_nonpos _ _ hd
  have hmain : ∀ t : ℤ, computeMatch a b t =
      .ok { score := 0
            meetsThreshold := decide ((t : ℚ) ≤ 0)
            recommendation := recommendationFor 0 } := by
    intro t
    rw [cm_ok a b t hv hl hza hzb, hs]
  refine ⟨hmain, ?_⟩
  rw [hmain 50]
  norm_num

/-- Witness for C7 at `a = [1,1]`, `b = [1,-1]` (dot product 0),
threshold 50: score 0, threshold not met. -/
theorem computeMatch_nonpos_sim_witness :
    computeMatch [fv 1, fv 1] [fv 1, fv (-1)] 50 =
      .ok { score := 0
            meetsThreshold := false
            recommendation := recommendationFor 0 } :=
  (computeMatch_nonpos_sim [fv 1, fv 1] [fv 1, fv (-1)]
    (by refine ⟨by decide, by decide, ?_, ?_⟩ <;> decide)
    (by decide)
    (by norm_num [sumSq, fv, FloatVal.toRat])
    (by norm_num [sumSq, fv, FloatVal.toRat])
    (by norm_num [dot, fv, FloatVal.toRat])).2

/-- C8: `computeMatch` is symmetric in its two embedding arguments: the
whole result, in particular the score, is unchanged when the embeddings
are swapped. -/
theorem computeMatch_symm (a b : List FloatVal) (t : ℤ) :
    computeMatch a b t = computeMatch b a t := by
  have hbi : badInput b a = badInput a b := (badInput_comm a b).symm
  by_cases h1 : badInput a b = true
  · simp [computeMatch, h1, hbi]
  · by_cases h2 : a.length = b.length
    · by_cases hz : sumSq (a.map FloatVal.toRat) = 0 ∨
        sumSq (b.map FloatVal.toRat) = 0
      · have hz2 := Or.symm hz
        simp [computeMatch, h1, hbi, h2, hz, hz2]
      · have hz' : ¬(sumSq (b.map FloatVal.toRat) = 0 ∨
            sumSq (a.map FloatVal.toRat) = 0) := fun h => hz (Or.symm h)
        simp [computeMatch, h1, hbi, h2, hz, hz', matchScore, dot_comm,
          mul_comm]
    · have h2' : b.length ≠ a.length := fun h => h2 h.symm
      simp [computeMatch, h1, hbi, h2, h2']

/-- C9: for every non-zero valid embedding and every threshold, matching an
embedding against itself gives score exactly 100 (the similarity, exactly
1 here, is clamped to 1 before rounding). -/
theorem computeMatch_self_100 (a : List FloatVal) (t : ℤ)
    (hne : a ≠ []) (hfin : ∀ v ∈ a, v.isFinite = true)
    (hz : sumSq (a.map FloatVal.toRat) ≠ 0) :
    computeMatch a a t =
      .ok { score := 100
            meetsThreshold := decide ((t : ℚ) ≤ 100)
            recommendation := recommendationFor 100 } := by
  have hs : matchScore a a = 100 := by
    unfold matchScore
    rw [dot_self_eq_sumSq]
    exact scaledScore_self _ (lt_of_le_of_ne (sumSq_nonneg _) (Ne.symm hz))
  rw [cm_ok a a t ⟨hne, hne, hfin, hfin⟩ rfl hz hz, hs]

/-- Witness for C9 at `a = [1,2]`, `t = 50`: the self-match score is
100. -/
theorem computeMatch_self_100_witness :
    computeMatch [fv 1, fv 2] [fv 1, fv 2] 50 =
      .ok { score := 100
            meetsThreshold := true
            recommendation := recommendationFor 100 } := by
  have h := computeMatch_self_100 [fv 1, fv 2] 50 (by decide) (by decide)
    (by norm_num [sumSq, fv, FloatVal.toRat])
  norm_num at h
  exact h

/-- C2 counterexample: a score exactly equal to 70 receives the moderate
message, not the strong positive one — the upper comparison in
`getScoreMessage` is strict (`score > 70`), so the claimed `score ≥ 70 →
strong tier` fails at 70. -/
theorem getScoreMessage_at_70_counterexample :
    getScoreMessage 70 = "Moderate Match. Brush up on your skills." ∧
      getScoreMessage 70 ≠ "High Match! You should apply." := by
  constructor
  · have h70 : ¬ ((70 : ℚ) < 70) := lt_irrefl 70
    have h40 : (40 : ℚ) ≤ 70 := by norm_num
    rw [getScoreMessage, if_neg h70, if_pos h40]
  · have h70 : ¬ ((70 : ℚ) < 70) := lt_irrefl 70
    have h40 : (40 : ℚ) ≤ 70 := by norm_num
    rw [getScoreMessage, if_neg h70, if_pos h40]
    decide

/-- C2 (amended): the recommendation tier is determined solely by the
score, with fixed boundaries 40 and 70, the upper comparison being strict:
score > 70 yields the strong positive message, 40 ≤ score ≤ 70 the
moderate message, and score < 40 the weak message; the same tiering drives
the banner color. -/
theorem getScoreMessage_tiers (s : ℚ) :
    (70 < s → getScoreMessage s = "High Match! You should apply.") ∧
    (40 ≤ s → s ≤ 70 →
      getScoreMessage s = "Moderate Match. Brush up on your skills.") ∧
    (s < 40 → getScoreMessage s = "Low Match. Consider other roles.") := by
  refine ⟨fun h => ?_, fun h1 h2 => ?_, fun h => ?_⟩
  · rw [getScoreMessage, if_pos h]
  · rw [getScoreMessage, if_neg (not_lt.mpr h2), if_pos h1]
  · have h70 : ¬ (70 < s) := not_lt.mpr (le_of_lt (lt_of_lt_of_le h (by norm_num)))
    rw [getScoreMessage, if_neg h70, if_neg (not_le.mpr h)]

/-- Witness for the amended C2: one score per tier, including the boundary
score 70 itself, which lands in the moderate tier. -/
theorem getScoreMessage_tiers_witness :
    getScoreMessage 80 = "High Match! You should apply." ∧
      getScoreMessage 70 = "Moderate Match. Brush up on your skills." ∧
      getScoreMessage 30 = "Low Match. Consider other roles." :=
  ⟨(getScoreMessage_tiers 80).1 (by norm_num),
    (getScoreMessage_tiers 70).2.1 (by norm_num) (by norm_num),
    (getScoreMessage_tiers 30).2.2 (by norm_num)⟩

theorem collapseWs_nil : collapseWs [] = [] := rfl

theorem collapseWs_singleton (c : Char) :
    collapseWs [c] = if isWs c then [spaceChar] else [c] := rfl

theorem collapseWs_cons₂ (c d : Char) (rest : List Char) :
    collapseWs (c :: d :: rest) =
      if isWs c && isWs d then collapseWs (d :: rest)
      else (if isWs c then spaceChar else c) :: collapseWs (d :: rest) := rfl

theorem collapseWs_cons_not_ws (d : Char) (rest : List Char)
    (h : isWs d = false) : collapseWs (d :: rest) = d :: collapseWs rest := by
  cases rest with
  | nil => simp [collapseWs_singleton, h, collapseWs_nil]
  | cons e es => simp [collapseWs_cons₂, h]

theorem mem_collapseWs (c : Char) (l : List Char) (h : c ∈ collapseWs l) :
    c = spaceChar ∨ (c ∈ l ∧ isWs c = false) := by
  induction l with
  | nil => simp [collapseWs_nil] at h
  | cons x xs ih =>
    cases xs with
    | nil =>
      rw [collapseWs_singleton] at h
      by_cases hx : isWs x
      · rw [if_pos hx] at h
        simp at h
        exact Or.inl h
      · rw [if_neg hx] at h
        simp at h
        subst h
        exact Or.inr ⟨List.mem_singleton_self c, Bool.eq_false_iff.mpr hx⟩
    | cons y ys =>
      rw [collapseWs_cons₂] at h
      by_cases hxy : (isWs x && isWs y) = true
      · rw [if_pos hxy] at h
        rcases ih h with h1 | ⟨h2, h3⟩
        · exact Or.inl h1
        · exact Or.inr ⟨List.mem_cons_of_mem x h2, h3⟩
      · rw [if_neg hxy] at h
        rcases List.mem_cons.mp h with h1 | h2
        · by_cases hx : isWs x
          · rw [if_pos hx] at h1
            exact Or.inl h1
          · rw [if_neg hx] at h1
            subst h1
            exact Or.inr ⟨List.mem_cons_self _ _, Bool.eq_false_iff.mpr hx⟩
        · rcases ih h2 with h3 | ⟨h4, h5⟩
          · exact Or.inl h3
          · exact Or.inr ⟨List.mem_cons_of_mem x h4, h5⟩

theorem noWsWs_cons₂ (a b : Char) (l : List Char) :
    noWsWs (a :: b :: l) = (!(isWs a && isWs b) && noWsWs (b :: l)) := rfl

theorem noWsWs_tail (a : Char) (l : List Char) (h : noWsWs (a :: l) = true) :
    noWsWs l = true := by
  cases l with
  | nil => rfl
  | cons b bs =>
    rw [noWsWs_cons₂, Bool.and_eq_true] at h
    exact h.2

theorem noWsWs_cons_of_not_ws (a : Char) (l : List Char)
    (h : isWs a = false) : noWsWs (a :: l) = noWsWs l := by
  cases l with
  | nil => rfl
  | cons b bs => simp [noWsWs_cons₂, h]

theorem noWsWs_collapseWs (l : List Char) : noWsWs (collapseWs l) = true := by
  induction l with
  | nil => rfl
  | cons x xs ih =>
    cases xs with
    | nil =>
      rw [collapseWs_singleton]
      by_cases hx : isWs x
      · rw [if_pos hx]; rfl
      · rw [if_neg hx]; rfl
    | cons y ys =>
      by_cases hx : isWs x
      · by_cases hy : isWs y
        · rw [collapseWs_cons₂, if_pos (by simp [hx, hy])]
          exact ih
        · have hy' : isWs y = false := Bool.eq_false_iff.mpr hy
          rw [collapseWs_cons₂, if_neg (by simp [hy']), if_pos hx,
            collapseWs_cons_not_ws y ys hy']
          rw [collapseWs_cons_not_ws y ys hy'] at ih
          rw [noWsWs_cons₂, ih, hy']
          simp
      · have hx' : isWs x = false := Bool.eq_false_iff.mpr hx
        rw [collapseWs_cons₂, if_neg (by simp [hx']), if_neg hx,
          noWsWs_cons_of_not_ws x _ hx']
        exact ih


theorem trimEnd_cons_of_nil (c : Char) (rest : List Char)
    (h : trimEnd rest = []) :
    trimEnd (c :: rest) = if isWs c then [] else [c] := by
  rw [trimEnd, h]

theorem trimEnd_cons_of_cons (c y : Char) (rest ys : List Char)
    (h : trimEnd rest = y :: ys) :
    trimEnd (c :: rest) = c :: y :: ys := by
  rw [trimEnd, h]

theorem trimEnd_sublist (l : List Char) : (trimEnd l).Sublist l := by
  induction l with
  | nil => exact List.Sublist.refl []
  | cons c rest ih =>
    cases ht : trimEnd rest with
    | nil =>
      rw [trimEnd_cons_of_nil c rest ht]
      by_cases hc : isWs c
      · rw [if_pos hc]
        exact List.nil_sublist _
      · rw [if_neg hc]
        exact (List.nil_sublist rest).cons₂ c
    | cons y ys =>
      rw [trimEnd_cons_of_cons c y rest ys ht, ← ht]
      exact ih.cons₂ c

theorem trimEnd_head_eq (l : List Char) (y : Char) (ys : List Char)
    (h : trimEnd l = y :: ys) : ∃ t, l = y :: t := by
  cases l with
  | nil => simp [trimEnd] at h
  | cons c rest =>
    cases ht : trimEnd rest with
    | nil =>
      rw [trimEnd_cons_of_nil c rest ht] at h
      by_cases hc : isWs c
      · rw [if_pos hc] at h
        exact absurd h (by simp)
      · rw [if_neg hc] at h
        obtain ⟨h1, h2⟩ := (List.cons.injEq _ _ _ _).mp h
        exact ⟨rest, by rw [h1]⟩
    | cons z zs =>
      rw [trimEnd_cons_of_cons c z rest zs ht] at h
      obtain ⟨h1, h2⟩ := (List.cons.injEq _ _ _ _).mp h
      exact ⟨rest, by rw [h1]⟩

theorem noWsWs_dropWhile (p : Char → Bool) (l : List Char)
    (h : noWsWs l = true) : noWsWs (l.dropWhile p) = true := by
  induction l with
  | nil => rfl
  | cons c rest ih =>
    rw [List.dropWhile_cons]
    by_cases hp : p c = true
    · rw [if_pos hp]
      exact ih (noWsWs_tail c rest h)
    · rw [if_neg hp]
      exact h

theorem noWsWs_trimEnd (l : List Char) (h : noWsWs l = true) :
    noWsWs (trimEnd l) = true := by
  induction l with
  | nil => rfl
  | cons c rest ih =>
    cases ht : trimEnd rest with
    | nil =>
      rw [trimEnd_cons_of_nil c rest ht]
      by_cases hc : isWs c
      · rw [if_pos hc]; rfl
      · rw [if_neg hc]; rfl
    | cons y ys =>
      rw [trimEnd_cons_of_cons c y rest ys ht]
      obtain ⟨t, hrest⟩ := trimEnd_head_eq rest y ys ht
      have htail : noWsWs (y :: ys) = true := by
        have h2 := ih (noWsWs_tail c rest h)
        rwa [ht] at h2
      rw [noWsWs_cons₂, htail, Bool.and_true]
      subst hrest
      rw [noWsWs_cons₂, Bool.and_eq_true] at h
      exact h.1

theorem trimEnd_getLastD (l : List Char) : ∀ (c₀ : Char), trimEnd l ≠ [] →
    isWs ((trimEnd l).getLastD c₀) = false := by
  induction l with
  | nil => intro c₀ h; exact absurd rfl h
  | cons c rest ih =>
    intro c₀ h
    cases ht : trimEnd rest with
    | nil =>
      rw [trimEnd_cons_of_nil c rest ht] at h ⊢
      by_cases hc : isWs c
      · rw [if_pos hc] at h
        exact absurd rfl h
      · rw [if_neg hc]
        simpa using Bool.eq_false_iff.mpr hc
    | cons y ys =>
      rw [trimEnd_cons_of_cons c y rest ys ht, List.getLastD_cons, ← ht]
      exact ih c (by rw [ht]; exact List.cons_ne_nil y ys)

theorem head_dropWhile (p : Char → Bool) (l : List Char) (c : Char)
    (tl : List Char) (h : l.dropWhile p = c :: tl) : p c = false := by
  induction l with
  | nil => simp at h
  | cons x xs ih =>
    rw [List.dropWhile_cons] at h
    by_cases hp : p x = true
    · rw [if_pos hp] at h
      exact ih h
    · rw [if_neg hp] at h
      obtain ⟨h1, h2⟩ := (List.cons.injEq _ _ _ _).mp h
      rw [← h1]
      exact Bool.eq_false_iff.mpr hp



theorem mem_sanitizeText (s : List Char) (c : Char)
    (h : c ∈ sanitizeText s) :
    c ∈ collapseWs (removeCtl (replaceNewlines s)) := by
  unfold sanitizeText trimWs at h
  have h1 := (trimEnd_sublist _).subset h
  exact (List.dropWhile_sublist _).subset h1

theorem spOnly_sanitizeText (s : List Char) : SpOnly (sanitizeText s) := by
  intro c hc hws
  rcases mem_collapseWs c _ (mem_sanitizeText s c hc) with h | ⟨_, hnws⟩
  · exact h
  · rw [hws] at hnws
    exact absurd hnws (by simp)

theorem noCtl_sanitizeText (s : List Char) (c : Char)
    (h : c ∈ sanitizeText s) : isCtl c = false := by
  rcases mem_collapseWs c _ (mem_sanitizeText s c h) with h1 | ⟨h2, _⟩
  · rw [h1]
    rfl
  · have h3 := (List.mem_filter.mp h2).2
    simpa using h3

theorem noWsWs_sanitizeText (s : List Char) :
    noWsWs (sanitizeText s) = true := by
  unfold sanitizeText trimWs
  exact noWsWs_trimEnd _ (noWsWs_dropWhile _ _ (noWsWs_collapseWs _))

theorem hasCtl_sanitizeText (s : List Char) :
    hasCtl (sanitizeText s) = false := by
  rw [hasCtl, List.any_eq_false]
  intro c hc
  rw [noCtl_sanitizeText s c hc]
  simp

theorem hasDoubleSpace_eq_false (l : List Char) (h : noWsWs l = true) :
    hasDoubleSpace l = false := by
  induction l with
  | nil => rfl
  | cons a rest ih =>
    cases rest with
    | nil => rfl
    | cons b bs =>
      rw [hasDoubleSpace, Bool.or_eq_false_iff]
      refine ⟨?_, ih (noWsWs_tail a _ h)⟩
      rw [noWsWs_cons₂, Bool.and_eq_true] at h
      by_cases ha : a = spaceChar
      · by_cases hb : b = spaceChar
        · subst ha; subst hb
          exact absurd h.1 (by decide)
        · simp [hb]
      · simp [ha]

theorem hasEdgeWs_sanitizeText (s : List Char) :
    hasEdgeWs (sanitizeText s) = false := by
  cases hs : sanitizeText s with
  | nil => rfl
  | cons c rest =>
    have hs' : trimEnd (List.dropWhile isWs
        (collapseWs (removeCtl (replaceNewlines s)))) = c :: rest := hs
    have hhead : isWs c = false := by
      obtain ⟨t, ht⟩ := trimEnd_head_eq _ c rest hs'
      exact head_dropWhile isWs _ c t ht
    have hlast := trimEnd_getLastD
      (List.dropWhile isWs (collapseWs (removeCtl (replaceNewlines s)))) c
      (by rw [hs']; exact List.cons_ne_nil c rest)
    rw [hs'] at hlast
    rw [hasEdgeWs, Bool.or_eq_false_iff]
    refine ⟨hhead, ?_⟩
    rw [List.getLastD_cons] at hlast
    exact hlast



theorem replaceNewlines_eq_self (l : List Char) (hsp : SpOnly l) :
    replaceNewlines l = l := by
  induction l with
  | nil => rfl
  | cons c rest ih =>
    have h1 : c ≠ nlChar := fun hh => by
      subst hh
      have := hsp nlChar (List.mem_cons_self _ _) (by decide)
      exact absurd this (by decide)
    have h2 : c ≠ crChar := fun hh => by
      subst hh
      have := hsp crChar (List.mem_cons_self _ _) (by decide)
      exact absurd this (by decide)
    have h3 : c ≠ tabChar := fun hh => by
      subst hh
      have := hsp tabChar (List.mem_cons_self _ _) (by decide)
      exact absurd this (by decide)
    have htail := ih fun x hx => hsp x (List.mem_cons_of_mem c hx)
    simp only [replaceNewlines, List.map_cons] at htail ⊢
    rw [htail, if_neg (by simp [h1, h2, h3])]

theorem removeCtl_eq_self (l : List Char)
    (h : ∀ c ∈ l, isCtl c = false) : removeCtl l = l := by
  rw [removeCtl, List.filter_eq_self]
  intro a ha
  rw [h a ha]
  rfl

theorem collapseWs_eq_self (l : List Char) (hsp : SpOnly l)
    (hw : noWsWs l = true) : collapseWs l = l := by
  induction l with
  | nil => rfl
  | cons c rest ih =>
    cases rest with
    | nil =>
      rw [collapseWs_singleton]
      by_cases hc : isWs c
      · rw [if_pos hc, hsp c (List.mem_cons_self _ _) (by simpa using hc)]
      · rw [if_neg hc]
    | cons y ys =>
      rw [noWsWs_cons₂, Bool.and_eq_true] at hw
      obtain ⟨hw1, hw2⟩ := hw
      have hcy : ¬((isWs c && isWs y) = true) := by
        intro hh
        rw [hh] at hw1
        exact absurd hw1 (by decide)
      rw [collapseWs_cons₂, if_neg hcy]
      have htail := ih (fun x hx => hsp x (List.mem_cons_of_mem c hx)) hw2
      rw [htail]
      by_cases hc : isWs c
      · rw [if_pos hc, hsp c (List.mem_cons_self _ _) (by simpa using hc)]
      · rw [if_neg hc]

theorem trimEnd_eq_self (l : List Char) : ∀ (c₀ : Char),
    isWs (l.getLastD c₀) = false → trimEnd l = l := by
  induction l with
  | nil => intro c₀ _; rfl
  | cons c rest ih =>
    intro c₀ h
    rw [List.getLastD_cons] at h
    cases rest with
    | nil =>
      have hc : isWs c = false := by simpa using h
      rw [trimEnd_cons_of_nil c [] rfl, if_neg (by simp [hc])]
    | cons y ys =>
      have htail : trimEnd (y :: ys) = y :: ys := ih c h
      rw [trimEnd_cons_of_cons c y (y :: ys) ys htail]

theorem sanitizeText_eq_self (l : List Char) (hsp : SpOnly l)
    (hw : noWsWs l = true) (hctl : ∀ c ∈ l, isCtl c = false)
    (hedge : hasEdgeWs l = false) : sanitizeText l = l := by
  unfold sanitizeText trimWs
  rw [replaceNewlines_eq_self l hsp, removeCtl_eq_self l hctl,
    collapseWs_eq_self l hsp hw]
  cases l with
  | nil => rfl
  | cons c rest =>
    rw [hasEdgeWs, Bool.or_eq_false_iff] at hedge
    rw [List.dropWhile_cons, if_neg (by simp [hedge.1])]
    exact trimEnd_eq_self (c :: rest) c
      (by rw [List.getLastD_cons]; exact hedge.2)

/-- C10: the job-description sanitizer is idempotent, and its output
contains no control characters, no consecutive spaces, and no leading or
trailing whitespace. -/
theorem sanitizeText_idem_clean (s : List Char) :
    sanitizeText (sanitizeText s) = sanitizeText s ∧
    hasCtl (sanitizeText s) = false ∧
    hasDoubleSpace (sanitizeText s) = false ∧
    hasEdgeWs (sanitizeText s) = false :=
  ⟨sanitizeText_eq_self _ (spOnly_sanitizeText s) (noWsWs_sanitizeText s)
      (noCtl_sanitizeText s) (hasEdgeWs_sanitizeText s),
    hasCtl_sanitizeText s,
    hasDoubleSpace_eq_false _ (noWsWs_sanitizeText s),
    hasEdgeWs_sanitizeText s⟩

end Placement
